import Mathlib

/-!
Shallow embedding of the SLD-naming-popularity analysis program
(`src/main.py`).  Strings are Lean `String`s; the character-level
operations of Python (`strip`, `lstrip`, `split`, substring test) are
re-implemented over `List Char` with the same semantics.  The three
aggregation dictionaries of `parse_domains` are embedded as total
functions with the `defaultdict` default values; file output is
embedded as the pure data each writer would serialize.
-/

namespace SLD

/-- ASCII whitespace characters removed by Python's `str.strip()`. -/
def isPySpace (c : Char) : Bool :=
  c = ' ' || c = '\t' || c = '\n' || c = '\r' || c = '\x0b' || c = '\x0c'

/-- Python `line.strip()`: remove leading and trailing whitespace. -/
def pyStrip (s : String) : String :=
  ⟨((s.data.dropWhile isPySpace).reverse.dropWhile isPySpace).reverse⟩

/-- Python `s.lstrip(c)` for a single-character strip set: remove every
leading occurrence of `c`. -/
def pyLstripChar (c : Char) (s : String) : String :=
  ⟨s.data.dropWhile (· = c)⟩

/-- Python `s.split(sep)` for a one-character separator, over char lists.
`splitOnChar sep [] = [[]]`, matching `"".split(sep) == [""]`. -/
def splitOnChar (sep : Char) : List Char → List (List Char)
  | [] => [[]]
  | c :: rest =>
    if c = sep then [] :: splitOnChar sep rest
    else
      match splitOnChar sep rest with
      | [] => [[c]]
      | h :: t => (c :: h) :: t

/-- Python `line.split('.')`. -/
def splitOnDot (s : String) : List String :=
  (splitOnChar '.' s.data).map (fun l => ⟨l⟩)

/-- Python `psl_content.split('\n')`. -/
def splitLines (s : String) : List String :=
  (splitOnChar '\n' s.data).map (fun l => ⟨l⟩)

/-- Python `line.startswith('//')`. -/
def isComment (s : String) : Bool :=
  match s.data with
  | '/' :: '/' :: _ => true
  | _ => false

/-- `startsWithList hay needle`: `needle` is a leading segment of `hay`. -/
def startsWithList : List Char → List Char → Bool
  | _, [] => true
  | [], _ :: _ => false
  | c :: cs, d :: ds => c = d && startsWithList cs ds

/-- Python `needle in hay`: contiguous-substring containment. -/
def containsSub (needle : List Char) : List Char → Bool
  | [] => startsWithList [] needle
  | c :: t => startsWithList (c :: t) needle || containsSub needle t

/-- Python `marker in line` on strings. -/
def lineContains (line marker : String) : Bool :=
  containsSub marker.data line.data

/-! ## Section extractor (`extract_icann_domains`) -/

def start_marker : String := "// ===BEGIN ICANN DOMAINS==="

def end_marker : String := "// ===END ICANN DOMAINS==="

/-- The scanning loop of `extract_icann_domains`: walk the lines carrying
the current index and the current `start_idx`; on a line containing the
start marker set `start_idx := idx + 1`, otherwise on a line containing
the end marker stop with `end_idx := idx` (the `break`). Returns the
final `(start_idx, end_idx)` pair. -/
def findMarkers : List String → Nat → Option Nat → Option Nat × Option Nat
  | [], _, sIdx => (sIdx, none)
  | line :: rest, idx, sIdx =>
    if lineContains line start_marker then
      findMarkers rest (idx + 1) (some (idx + 1))
    else if lineContains line end_marker then
      (sIdx, some idx)
    else
      findMarkers rest (idx + 1) sIdx

/-- `extract_icann_domains`: split the content on newlines, scan for the
markers, and return `lines[start_idx:end_idx]`; raise `ValueError` (here:
`Except.error`) when either index was never set. -/
def extract_icann_domains (psl_content : String) : Except String (List String) :=
  let lines := splitLines psl_content
  match findMarkers lines 0 none with
  | (some s, some e) => Except.ok ((lines.drop s).take (e - s))
  | _ => Except.error "Could not find ICANN domains section markers"

/-! ## Domain parser (`parse_domains`) -/

/-- Default `exclude_tlds={'it', 'jp', 'no'}`. -/
def defaultExclude : List String := ["it", "jp", "no"]

/-- Per-line label extraction of `parse_domains`, up to (but not
including) the exclusion test: strip whitespace, skip blanks and `//`
comments, strip the leading `*` run then the leading `!` run, split on
`.`, drop empty parts, require at least two parts, and return
`(parts[-1], parts[:-1])`. -/
def lineLabels (rawLine : String) : Option (String × List String) :=
  let line := pyStrip rawLine
  if line.isEmpty then none
  else if isComment line then none
  else
    let stripped := pyLstripChar '!' (pyLstripChar '*' line)
    let parts := (splitOnDot stripped).filter (fun p => !p.isEmpty)
    if parts.length < 2 then none
    else
      match parts.getLast? with
      | none => none
      | some tld => some (tld, parts.dropLast)

/-- Per-line handling of `parse_domains` including the excluded-TLD skip:
`none` means the line performs no index updates. -/
def parseLine (excl : List String) (rawLine : String) :
    Option (String × List String) :=
  match lineLabels rawLine with
  | none => none
  | some (tld, comps) => if tld ∈ excl then none else some (tld, comps)

/-- The three `defaultdict` accumulators of `parse_domains`, embedded as
total functions with the default values `set()`, `0`, `[]`. -/
structure ParseState where
  component_tlds : String → Finset String
  component_total_count : String → Nat
  tld_components : String → List String

def initState : ParseState :=
  { component_tlds := fun _ => ∅
    component_total_count := fun _ => 0
    tld_components := fun _ => [] }

/-- One iteration of the inner loop body of `parse_domains`:
`component_tlds[component].add(tld)`,
`component_total_count[component] += 1`,
`tld_components[tld].append(component)`. -/
def addComponent (st : ParseState) (tld c : String) : ParseState :=
  { component_tlds := fun x =>
      if x = c then insert tld (st.component_tlds c) else st.component_tlds x
    component_total_count := fun x =>
      if x = c then st.component_total_count c + 1
      else st.component_total_count x
    tld_components := fun x =>
      if x = tld then st.tld_components tld ++ [c] else st.tld_components x }

/-- The inner `for component in parts[:-1]` loop, guard included. -/
def processComps (tld : String) (st : ParseState) (comps : List String) :
    ParseState :=
  comps.foldl (fun s c => if c.isEmpty then s else addComponent s tld c) st

/-- One iteration of the outer `for line in lines` loop. -/
def processLine (excl : List String) (st : ParseState) (line : String) :
    ParseState :=
  match parseLine excl line with
  | none => st
  | some (tld, comps) => processComps tld st comps

/-- `parse_domains(lines, exclude_tlds)`. -/
def parse_domains (lines : List String) (excl : List String) : ParseState :=
  lines.foldl (processLine excl) initState

/-- The per-line parse results, in input order. -/
def parsedLines (lines : List String) (excl : List String) :
    List (String × List String) :=
  lines.filterMap (parseLine excl)

/-- Every component occurrence processed by the parser, in input order. -/
def allComponents (lines : List String) (excl : List String) : List String :=
  ((parsedLines lines excl).map (fun p => p.2)).flatten

/-- The TLD of every processed line, in input order. -/
def allTlds (lines : List String) (excl : List String) : List String :=
  (parsedLines lines excl).map Prod.fst

/-- Key list of the component dictionaries (Python insertion order:
first occurrence order). -/
def componentKeys (lines : List String) (excl : List String) : List String :=
  (allComponents lines excl).dedup

/-- Key list of `tld_components` (first occurrence order). -/
def tldKeys (lines : List String) (excl : List String) : List String :=
  (allTlds lines excl).dedup

/-! ## Frequencies (`calculate_frequencies`) -/

/-- `calculate_frequencies`: the total view copies
`component_total_count`; the unique view maps each component to the
cardinality of its TLD set. -/
def calculate_frequencies (component_tlds : String → Finset String)
    (component_total_count : String → Nat) :
    (String → Nat) × (String → Nat) :=
  (fun c => component_total_count c,
   fun c => (component_tlds c).card)

/-! ## Report writers -/

/-- The comparator of `write_csv`'s
`sorted(data.items(), key=lambda x: (-x[1], x[0]))`:
frequency descending, then string ascending. -/
def rowRel (a b : String × Nat) : Prop :=
  b.2 < a.2 ∨ (a.2 = b.2 ∧ a.1 ≤ b.1)

instance : DecidableRel rowRel := fun a b => by
  unfold rowRel; infer_instance

instance : IsTotal (String × Nat) rowRel where
  total a b := by
    rcases Nat.lt_trichotomy a.2 b.2 with h | h | h
    · exact Or.inr (Or.inl h)
    · rcases le_total a.1 b.1 with h1 | h1
      · exact Or.inl (Or.inr ⟨h, h1⟩)
      · exact Or.inr (Or.inr ⟨h.symm, h1⟩)
    · exact Or.inl (Or.inl h)

instance : IsTrans (String × Nat) rowRel where
  trans a b c hab hbc := by
    rcases hab with h1 | ⟨e1, s1⟩
    · rcases hbc with h2 | ⟨e2, s2⟩
      · exact Or.inl (h2.trans h1)
      · exact Or.inl (e2 ▸ h1)
    · rcases hbc with h2 | ⟨e2, s2⟩
      · exact Or.inl (e1.symm ▸ h2)
      · exact Or.inr ⟨e1.trans e2, s1.trans s2⟩

/-- The rows `write_csv` serializes below the header: the dictionary's
`(key, value)` pairs sorted by `(-value, key)`. -/
def write_csv_rows (keys : List String) (freq : String → Nat) :
    List (String × Nat) :=
  List.insertionSort rowRel (keys.map (fun k => (k, freq k)))

/-- Comparator `key=lambda x: (-component_total_count[x], x)` used by
both JSON writers to rank component strings. -/
def countRel (count : String → Nat) (a b : String) : Prop :=
  count b < count a ∨ (count a = count b ∧ a ≤ b)

instance (count : String → Nat) : DecidableRel (countRel count) := fun a b => by
  unfold countRel; infer_instance

/-- `write_json_string_to_tlds`: components ranked by
`(-total_count, string)`, each mapped to its count and the sorted list of
its TLDs. -/
def write_json_string_to_tlds (keys : List String)
    (component_tlds : String → Finset String)
    (component_total_count : String → Nat) :
    List (String × Nat × List String) :=
  (List.insertionSort (countRel component_total_count) keys).map
    (fun c => (c, component_total_count c,
               (component_tlds c).sort (· ≤ ·)))

/-- `write_json_tld_to_strings`: TLD keys sorted alphabetically, each
mapped to its deduplicated components ranked by `(-total_count, string)`. -/
def write_json_tld_to_strings (tlds : List String)
    (tld_components : String → List String)
    (component_total_count : String → Nat) :
    List (String × List String) :=
  (List.insertionSort (· ≤ ·) tlds).map
    (fun t => (t, List.insertionSort (countRel component_total_count)
                    (tld_components t).dedup))

/-- The four output artifacts of one run. -/
structure RunOutput where
  total_csv : List (String × Nat)
  unique_csv : List (String × Nat)
  string_to_tlds : List (String × Nat × List String)
  tld_to_strings : List (String × List String)
deriving DecidableEq

/-- `main` after the fetch: extract the ICANN section, parse, compute
frequencies, and build the four artifacts.  An extraction failure
propagates and no artifact is produced. -/
def run (psl_content : String) : Except String RunOutput :=
  match extract_icann_domains psl_content with
  | Except.error e => Except.error e
  | Except.ok icann_lines =>
    let st := parse_domains icann_lines defaultExclude
    let keys := componentKeys icann_lines defaultExclude
    let tlds := tldKeys icann_lines defaultExclude
    let fr := calculate_frequencies st.component_tlds st.component_total_count
    Except.ok
      { total_csv := write_csv_rows keys fr.1
        unique_csv := write_csv_rows keys fr.2
        string_to_tlds :=
          write_json_string_to_tlds keys st.component_tlds
            st.component_total_count
        tld_to_strings :=
          write_json_tld_to_strings tlds st.tld_components
            st.component_total_count }

/-! ## Pointwise behaviour of the accumulator -/

lemma addComponent_count (st : ParseState) (tld x c : String) :
    (addComponent st tld x).component_total_count c =
      if c = x then st.component_total_count x + 1
      else st.component_total_count c := rfl

lemma addComponent_tlds (st : ParseState) (tld x c : String) :
    (addComponent st tld x).component_tlds c =
      if c = x then insert tld (st.component_tlds x)
      else st.component_tlds c := rfl

lemma addComponent_list (st : ParseState) (tld x : String) (t : String) :
    (addComponent st tld x).tld_components t =
      if t = tld then st.tld_components tld ++ [x]
      else st.tld_components t := rfl

lemma processComps_cons (tld : String) (st : ParseState) (x : String)
    (rest : List String) :
    processComps tld st (x :: rest) =
      processComps tld (if x.isEmpty then st else addComponent st tld x) rest := by
  by_cases hx : x.isEmpty <;> simp [processComps, hx]

lemma processComps_count (tld c : String) :
    ∀ (comps : List String) (st : ParseState),
    (processComps tld st comps).component_total_count c =
      st.component_total_count c +
        (comps.filter (fun s => !s.isEmpty)).count c := by
  intro comps
  induction comps with
  | nil => intro st; simp [processComps]
  | cons x rest ih =>
    intro st
    rw [processComps_cons, ih]
    by_cases hx : x.isEmpty
    · simp [hx, List.filter_cons]
    · have hfc : List.filter (fun s => !s.isEmpty) (x :: rest) =
          x :: List.filter (fun s => !s.isEmpty) rest := by
        simp [List.filter_cons, hx]
      rw [if_neg hx, hfc]
      by_cases hcx : c = x
      · subst hcx
        rw [addComponent_count, if_pos rfl]
        have hc1 : List.count c (c :: List.filter (fun s => !s.isEmpty) rest) =
            List.count c (List.filter (fun s => !s.isEmpty) rest) + 1 := by
          simp [List.count_cons]
        rw [hc1]; omega
      · rw [addComponent_count, if_neg hcx]
        have hbc : (x == c) = false := by
          simp only [beq_eq_false_iff_ne, ne_eq]
          exact fun h => hcx h.symm
        have hc1 : List.count c (x :: List.filter (fun s => !s.isEmpty) rest) =
            List.count c (List.filter (fun s => !s.isEmpty) rest) := by
          simp [List.count_cons, hbc]
        rw [hc1]

lemma processComps_tlds (tld c : String) :
    ∀ (comps : List String) (st : ParseState),
    (processComps tld st comps).component_tlds c =
      if c ∈ comps.filter (fun s => !s.isEmpty) then
        insert tld (st.component_tlds c)
      else st.component_tlds c := by
  intro comps
  induction comps with
  | nil => intro st; simp [processComps]
  | cons x rest ih =>
    intro st
    rw [processComps_cons, ih]
    by_cases hx : x.isEmpty
    · simp [hx, List.filter_cons]
    · have hfc : List.filter (fun s => !s.isEmpty) (x :: rest) =
          x :: List.filter (fun s => !s.isEmpty) rest := by
        simp [List.filter_cons, hx]
      rw [if_neg hx, hfc]
      by_cases hcx : c = x
      · subst hcx
        rw [addComponent_tlds, if_pos rfl]
        by_cases hmem : c ∈ rest.filter (fun s => !s.isEmpty) <;>
          simp [hmem, List.mem_cons, Finset.insert_idem]
      · rw [addComponent_tlds, if_neg hcx]
        by_cases hmem : c ∈ rest.filter (fun s => !s.isEmpty) <;>
          simp [hmem, hcx, List.mem_cons]

lemma processComps_list (tld t : String) :
    ∀ (comps : List String) (st : ParseState),
    (processComps tld st comps).tld_components t =
      if t = tld then
        st.tld_components tld ++ comps.filter (fun s => !s.isEmpty)
      else st.tld_components t := by
  intro comps
  induction comps with
  | nil =>
    intro st
    by_cases ht : t = tld <;> simp [processComps, ht]
  | cons x rest ih =>
    intro st
    rw [processComps_cons, ih]
    by_cases hx : x.isEmpty
    · simp [hx, List.filter_cons]
    · by_cases ht : t = tld
      · subst ht
        simp [hx, List.filter_cons, addComponent_list]
      · simp [hx, List.filter_cons, addComponent_list, ht]

/-! ## Facts about the per-line parse -/

lemma processLine_of_none {excl : List String} {line : String}
    (h : parseLine excl line = none) (st : ParseState) :
    processLine excl st line = st := by
  simp [processLine, h]

lemma processLine_of_some {excl : List String} {line : String}
    {tld : String} {comps : List String}
    (h : parseLine excl line = some (tld, comps)) (st : ParseState) :
    processLine excl st line = processComps tld st comps := by
  simp [processLine, h]

lemma parseLine_eq_some {excl : List String} {line : String}
    {tld : String} {comps : List String}
    (h : parseLine excl line = some (tld, comps)) :
    lineLabels line = some (tld, comps) ∧ tld ∉ excl := by
  unfold parseLine at h
  rcases hl : lineLabels line with _ | ⟨tld', comps'⟩ <;> rw [hl] at h
  · simp at h
  · by_cases hex : tld' ∈ excl
    · simp [hex] at h
    · simp only [hex, if_false, Option.some.injEq, Prod.mk.injEq] at h
      obtain ⟨h1, h2⟩ := h
      subst h1; subst h2
      exact ⟨rfl, hex⟩

lemma lineLabels_eq_some {line tld : String} {comps : List String}
    (h : lineLabels line = some (tld, comps)) :
    ∃ parts : List String,
      parts = (splitOnDot (pyLstripChar '!'
                (pyLstripChar '*' (pyStrip line)))).filter
                (fun p => !p.isEmpty) ∧
      2 ≤ parts.length ∧ parts.getLast? = some tld ∧ comps = parts.dropLast := by
  unfold lineLabels at h
  by_cases h1 : (pyStrip line).isEmpty
  · simp [h1] at h
  · by_cases h2 : isComment (pyStrip line)
    · simp [h1, h2] at h
    · simp only [h1, h2, if_false, Bool.false_eq_true] at h
      set parts := (splitOnDot (pyLstripChar '!'
        (pyLstripChar '*' (pyStrip line)))).filter (fun p => !p.isEmpty) with hp
      by_cases h3 : parts.length < 2
      · rw [if_pos h3] at h; simp at h
      · rw [if_neg h3] at h
        rcases hl : parts.getLast? with _ | tld' <;> rw [hl] at h
        · simp at h
        · simp only [Option.some.injEq, Prod.mk.injEq] at h
          exact ⟨parts, rfl, Nat.le_of_not_lt h3,
            by rw [hl, h.1], h.2.symm⟩

/-- The component list returned by a successful per-line parse contains
no empty strings (the parts were filtered), so the inner-loop guard is
inert. -/
lemma parseLine_comps_clean {excl : List String} {line tld : String}
    {comps : List String} (h : parseLine excl line = some (tld, comps)) :
    comps.filter (fun s => !s.isEmpty) = comps := by
  obtain ⟨hlab, -⟩ := parseLine_eq_some h
  obtain ⟨parts, hparts, -, -, hcomps⟩ := lineLabels_eq_some hlab
  rw [List.filter_eq_self]
  intro a ha
  rw [hcomps] at ha
  have hmem : a ∈ parts := (List.dropLast_sublist parts).subset ha
  rw [hparts] at hmem
  exact (List.mem_filter.mp hmem).2

/-! ## Closed forms for the three indexes -/

lemma foldl_count (excl : List String) (c : String) :
    ∀ (lines : List String) (st : ParseState),
    (lines.foldl (processLine excl) st).component_total_count c =
      st.component_total_count c +
        ((lines.filterMap (parseLine excl)).map (fun p => p.2.count c)).sum := by
  intro lines
  induction lines with
  | nil => intro st; simp
  | cons line rest ih =>
    intro st
    rw [List.foldl_cons, List.filterMap_cons]
    rcases hp : parseLine excl line with _ | p
    · rw [processLine_of_none hp, ih]
    · obtain ⟨tld, comps⟩ := p
      rw [processLine_of_some hp, ih, processComps_count,
        parseLine_comps_clean hp]
      simp only [List.map_cons, List.sum_cons]
      omega

lemma foldl_tlds_mem (excl : List String) (c t : String) :
    ∀ (lines : List String) (st : ParseState),
    (t ∈ (lines.foldl (processLine excl) st).component_tlds c ↔
      t ∈ st.component_tlds c ∨
        ∃ p ∈ lines.filterMap (parseLine excl), p.1 = t ∧ c ∈ p.2) := by
  intro lines
  induction lines with
  | nil => intro st; simp
  | cons line rest ih =>
    intro st
    rw [List.foldl_cons, List.filterMap_cons]
    rcases hp : parseLine excl line with _ | p
    · rw [processLine_of_none hp, ih]
    · obtain ⟨tld, comps⟩ := p
      rw [processLine_of_some hp, ih, processComps_tlds,
        parseLine_comps_clean hp]
      by_cases hmem : c ∈ comps
      · rw [if_pos hmem]
        simp only [Finset.mem_insert, List.mem_cons]
        constructor
        · rintro ((heq | h) | h)
          · exact Or.inr ⟨(tld, comps), Or.inl rfl, heq.symm, hmem⟩
          · exact Or.inl h
          · obtain ⟨p, hp1, hp2⟩ := h
            exact Or.inr ⟨p, Or.inr hp1, hp2⟩
        · rintro (h | ⟨p, (rfl | hp1), hp2, hp3⟩)
          · exact Or.inl (Or.inr h)
          · exact Or.inl (Or.inl hp2.symm)
          · exact Or.inr ⟨p, hp1, hp2, hp3⟩
      · rw [if_neg hmem]
        constructor
        · rintro (h | ⟨p, hp1, hp2⟩)
          · exact Or.inl h
          · exact Or.inr ⟨p, List.mem_cons_of_mem _ hp1, hp2⟩
        · rintro (h | ⟨p, hp1, hp2, hp3⟩)
          · exact Or.inl h
          · rcases List.mem_cons.mp hp1 with rfl | hp1'
            · exact absurd hp3 hmem
            · exact Or.inr ⟨p, hp1', hp2, hp3⟩

lemma foldl_list (excl : List String) (t : String) :
    ∀ (lines : List String) (st : ParseState),
    (lines.foldl (processLine excl) st).tld_components t =
      st.tld_components t ++
        (((lines.filterMap (parseLine excl)).filter
            (fun p => p.1 == t)).map (fun p => p.2)).flatten := by
  intro lines
  induction lines with
  | nil => intro st; simp
  | cons line rest ih =>
    intro st
    rw [List.foldl_cons, List.filterMap_cons]
    rcases hp : parseLine excl line with _ | p
    · rw [processLine_of_none hp, ih]
    · obtain ⟨tld, comps⟩ := p
      rw [processLine_of_some hp, ih, processComps_list,
        parseLine_comps_clean hp]
      by_cases ht : tld = t
      · subst ht
        rw [if_pos rfl, List.filter_cons, if_pos (by simp)]
        simp [List.append_assoc]
      · rw [if_neg (fun h => ht h.symm), List.filter_cons,
          if_neg (by simp [ht])]

lemma count_closed (lines excl : List String) (c : String) :
    (parse_domains lines excl).component_total_count c =
      ((parsedLines lines excl).map (fun p => p.2.count c)).sum := by
  rw [parse_domains, foldl_count]
  simp [initState, parsedLines]

lemma tlds_mem_closed (lines excl : List String) (c t : String) :
    t ∈ (parse_domains lines excl).component_tlds c ↔
      ∃ p ∈ parsedLines lines excl, p.1 = t ∧ c ∈ p.2 := by
  rw [parse_domains, foldl_tlds_mem]
  simp [initState, parsedLines]

lemma list_closed (lines excl : List String) (t : String) :
    (parse_domains lines excl).tld_components t =
      (((parsedLines lines excl).filter
          (fun p => p.1 == t)).map (fun p => p.2)).flatten := by
  rw [parse_domains, foldl_list]
  simp [initState, parsedLines]

/-- The total count of a component is its number of occurrences in the
flattened component stream, in particular a pure function of the
multiset of processed lines. -/
lemma count_eq_allComponents (lines excl : List String) (c : String) :
    (parse_domains lines excl).component_total_count c =
      (allComponents lines excl).count c := by
  rw [count_closed, allComponents, List.count_flatten, List.map_map]
  rfl

/-! ## Structure of `splitOnChar` and substring containment -/

lemma splitOnChar_ne_nil (sep : Char) (l : List Char) :
    splitOnChar sep l ≠ [] := by
  cases l with
  | nil => simp [splitOnChar]
  | cons c rest =>
    rw [splitOnChar]
    by_cases hc : c = sep
    · simp [hc]
    · rw [if_neg hc]
      rcases h : splitOnChar sep rest with _ | ⟨h', t'⟩ <;> simp

/-- No piece produced by `splitOnChar` contains the separator. -/
lemma splitOnChar_no_sep (sep : Char) :
    ∀ (l : List Char), ∀ p ∈ splitOnChar sep l, sep ∉ p := by
  intro l
  induction l with
  | nil =>
    intro p hp
    simp [splitOnChar] at hp
    simp [hp]
  | cons c rest ih =>
    intro p hp
    rw [splitOnChar] at hp
    by_cases hc : c = sep
    · rw [if_pos hc] at hp
      rcases List.mem_cons.mp hp with rfl | hp'
      · simp
      · exact ih p hp'
    · rw [if_neg hc] at hp
      rcases hsp : splitOnChar sep rest with _ | ⟨h', t'⟩
      · exact absurd hsp (splitOnChar_ne_nil sep rest)
      · rw [hsp] at hp
        rcases List.mem_cons.mp hp with rfl | hp'
        · intro hmem
          rcases List.mem_cons.mp hmem with rfl | hmem'
          · exact hc rfl
          · exact ih h' (hsp ▸ List.mem_cons_self h' t') hmem'
        · exact ih p (hsp ▸ List.mem_cons_of_mem h' hp')

/-- The first piece of `splitOnChar` is a leading segment of the input. -/
lemma splitOnChar_head (sep : Char) :
    ∀ (l : List Char) (h : List Char) (t : List (List Char)),
      splitOnChar sep l = h :: t → ∃ post, l = h ++ post := by
  intro l
  induction l with
  | nil =>
    intro h t hsp
    simp [splitOnChar] at hsp
    exact ⟨[], by simp [hsp.1.symm]⟩
  | cons c rest ih =>
    intro h t hsp
    rw [splitOnChar] at hsp
    by_cases hc : c = sep
    · rw [if_pos hc] at hsp
      obtain ⟨rfl, -⟩ := List.cons.injEq .. ▸ (List.cons.inj hsp)
      exact ⟨c :: rest, rfl⟩
    · rw [if_neg hc] at hsp
      rcases hr : splitOnChar sep rest with _ | ⟨h', t'⟩
      · exact absurd hr (splitOnChar_ne_nil sep rest)
      · rw [hr] at hsp
        obtain ⟨rfl, -⟩ := List.cons.inj hsp
        obtain ⟨post, hpost⟩ := ih h' t' hr
        exact ⟨post, by simp [hpost]⟩

/-- Every piece of `splitOnChar` occurs contiguously in the input. -/
lemma splitOnChar_piece_sub (sep : Char) :
    ∀ (l : List Char), ∀ p ∈ splitOnChar sep l,
      ∃ pre post, l = pre ++ p ++ post := by
  intro l
  induction l with
  | nil =>
    intro p hp
    simp [splitOnChar] at hp
    exact ⟨[], [], by simp [hp]⟩
  | cons c rest ih =>
    intro p hp
    rw [splitOnChar] at hp
    by_cases hc : c = sep
    · rw [if_pos hc] at hp
      rcases List.mem_cons.mp hp with rfl | hp'
      · exact ⟨[], c :: rest, by simp⟩
      · obtain ⟨pre, post, hdec⟩ := ih p hp'
        exact ⟨c :: pre, post, by simp [hdec]⟩
    · rw [if_neg hc] at hp
      rcases hr : splitOnChar sep rest with _ | ⟨h', t'⟩
      · exact absurd hr (splitOnChar_ne_nil sep rest)
      · rw [hr] at hp
        rcases List.mem_cons.mp hp with rfl | hp'
        · obtain ⟨post, hpost⟩ := splitOnChar_head sep rest h' t' hr
          exact ⟨[], post, by simp [hpost]⟩
        · obtain ⟨pre, post, hdec⟩ :=
            ih p (hr ▸ List.mem_cons_of_mem h' hp')
          exact ⟨c :: pre, post, by simp [hdec]⟩

lemma startsWithList_iff (n : List Char) :
    ∀ (h : List Char), startsWithList h n = true ↔ ∃ post, h = n ++ post := by
  induction n with
  | nil => intro h; simp [startsWithList]
  | cons d ds ihn =>
    intro h
    cases h with
    | nil => simp [startsWithList]
    | cons c cs =>
      rw [startsWithList]
      simp only [Bool.and_eq_true, decide_eq_true_eq, ihn cs]
      constructor
      · rintro ⟨rfl, post, rfl⟩
        exact ⟨post, rfl⟩
      · rintro ⟨post, hp⟩
        obtain ⟨rfl, rfl⟩ := List.cons.inj hp
        exact ⟨rfl, post, rfl⟩

lemma containsSub_iff (n : List Char) :
    ∀ (h : List Char),
      containsSub n h = true ↔ ∃ pre post, h = pre ++ n ++ post := by
  intro h
  induction h with
  | nil =>
    rw [containsSub, startsWithList_iff]
    constructor
    · rintro ⟨post, hp⟩
      exact ⟨[], post, by simp [hp]⟩
    · rintro ⟨pre, post, hp⟩
      have hpre : pre = [] := by
        cases pre with
        | nil => rfl
        | cons a b => simp at hp
      subst hpre
      cases n with
      | nil => exact ⟨post, by simpa using hp⟩
      | cons a b => simp at hp
  | cons c t ih =>
    rw [containsSub, Bool.or_eq_true, startsWithList_iff, ih]
    constructor
    · rintro (⟨post, hp⟩ | ⟨pre, post, hp⟩)
      · exact ⟨[], post, by simp [hp]⟩
      · exact ⟨c :: pre, post, by simp [hp]⟩
    · rintro ⟨pre, post, hp⟩
      cases pre with
      | nil => exact Or.inl ⟨post, by simpa using hp⟩
      | cons a b =>
        obtain ⟨rfl, hp'⟩ := List.cons.inj (by simpa using hp)
        exact Or.inr ⟨b, post, by simp [hp']⟩

/-! ## Shape of the strings stored by the parser -/

lemma filtered_part_shape {s a : String}
    (ha : a ∈ (splitOnDot s).filter (fun p => !p.isEmpty)) :
    a ≠ "" ∧ '.' ∉ a.data := by
  obtain ⟨hmem, hne⟩ := List.mem_filter.mp ha
  constructor
  · intro h
    rw [h] at hne
    exact absurd hne (by decide)
  · rw [splitOnDot, List.mem_map] at hmem
    obtain ⟨p, hp, rfl⟩ := hmem
    exact splitOnChar_no_sep '.' s.data p hp

lemma lineLabels_strings {line tld : String} {comps : List String}
    (h : lineLabels line = some (tld, comps)) :
    (tld ≠ "" ∧ '.' ∉ tld.data) ∧ ∀ c ∈ comps, c ≠ "" ∧ '.' ∉ c.data := by
  obtain ⟨parts, hparts, -, hlast, hcomps⟩ := lineLabels_eq_some h
  constructor
  · have htld : tld ∈ parts := List.mem_of_mem_getLast? hlast
    exact filtered_part_shape (hparts ▸ htld)
  · intro c hc
    rw [hcomps] at hc
    have : c ∈ parts := (List.dropLast_sublist parts).subset hc
    exact filtered_part_shape (hparts ▸ this)

lemma parsed_line_facts {lines excl : List String} {p : String × List String}
    (hp : p ∈ parsedLines lines excl) :
    p.1 ∉ excl ∧ (p.1 ≠ "" ∧ '.' ∉ p.1.data) ∧
      ∀ c ∈ p.2, c ≠ "" ∧ '.' ∉ c.data := by
  obtain ⟨line, -, hline⟩ := List.mem_filterMap.mp hp
  obtain ⟨tld, comps⟩ := p
  obtain ⟨hlab, hexcl⟩ := parseLine_eq_some hline
  obtain ⟨htld, hcs⟩ := lineLabels_strings hlab
  exact ⟨hexcl, htld, hcs⟩

lemma mem_allComponents {lines excl : List String} {c : String} :
    c ∈ allComponents lines excl ↔
      ∃ p ∈ parsedLines lines excl, c ∈ p.2 := by
  rw [allComponents, List.mem_flatten]
  constructor
  · rintro ⟨l, hl, hcl⟩
    obtain ⟨p, hp, rfl⟩ := List.mem_map.mp hl
    exact ⟨p, hp, hcl⟩
  · rintro ⟨p, hp, hcp⟩
    exact ⟨p.2, List.mem_map.mpr ⟨p, hp, rfl⟩, hcp⟩

/-! ## Cardinality invariant (unique-TLD count vs total count) -/

/-- The invariant linking the TLD-set index and the count index. -/
def cardInv (st : ParseState) : Prop :=
  ∀ c, (st.component_tlds c).card ≤ st.component_total_count c

lemma cardInv_init : cardInv initState := by
  intro c; simp [initState]

lemma cardInv_add {st : ParseState} (tld x : String) (h : cardInv st) :
    cardInv (addComponent st tld x) := by
  intro c
  rw [addComponent_tlds, addComponent_count]
  by_cases hcx : c = x
  · rw [if_pos hcx, if_pos hcx]
    exact (Finset.card_insert_le _ _).trans (Nat.add_le_add_right (h x) 1)
  · rw [if_neg hcx, if_neg hcx]
    exact h c

lemma cardInv_processComps {st : ParseState} (tld : String)
    (comps : List String) (h : cardInv st) :
    cardInv (processComps tld st comps) := by
  induction comps generalizing st with
  | nil => exact h
  | cons x rest ih =>
    rw [processComps_cons]
    by_cases hx : x.isEmpty
    · rw [if_pos hx]; exact ih h
    · rw [if_neg hx]; exact ih (cardInv_add tld x h)

lemma cardInv_parse (lines excl : List String) :
    cardInv (parse_domains lines excl) := by
  rw [parse_domains]
  have : ∀ (ls : List String) (st : ParseState), cardInv st →
      cardInv (ls.foldl (processLine excl) st) := by
    intro ls
    induction ls with
    | nil => intro st h; exact h
    | cons line rest ih =>
      intro st h
      rw [List.foldl_cons]
      rcases hp : parseLine excl line with _ | p
      · rw [processLine_of_none hp]; exact ih st h
      · obtain ⟨tld, comps⟩ := p
        rw [processLine_of_some hp]
        exact ih _ (cardInv_processComps tld comps h)
  exact this lines initState cardInv_init

/-! ## Fiberwise sum over the parsed lines (for the grand-total identity) -/

lemma sum_fiber (w : String × List String → Nat) :
    ∀ (l : List (String × List String)),
      ∑ t ∈ (l.map Prod.fst).toFinset,
        ((l.filter (fun p => p.1 == t)).map w).sum = (l.map w).sum := by
  intro l
  induction l with
  | nil => simp
  | cons p rest ih =>
    have hsplit : ∀ t : String,
        (((p :: rest).filter (fun q => q.1 == t)).map w).sum =
          (if p.1 = t then w p else 0) +
            ((rest.filter (fun q => q.1 == t)).map w).sum := by
      intro t
      rw [List.filter_cons]
      by_cases h : p.1 = t
      · rw [if_pos (by simp [h]), if_pos h]; simp
      · rw [if_neg (by simp [h]), if_neg h]; simp
    rw [List.map_cons, List.toFinset_cons]
    rw [Finset.sum_congr rfl (fun t _ => hsplit t), Finset.sum_add_distrib]
    rw [Finset.sum_ite_eq, if_pos (Finset.mem_insert_self _ _)]
    rw [List.map_cons, List.sum_cons]
    congr 1
    by_cases hmem : p.1 ∈ (rest.map Prod.fst).toFinset
    · rw [Finset.insert_eq_self.mpr hmem]
      exact ih
    · rw [Finset.sum_insert hmem]
      have hnil : rest.filter (fun q => q.1 == p.1) = [] := by
        rw [List.filter_eq_nil_iff]
        intro q hq hq1
        exact hmem (List.mem_toFinset.mpr
          (List.mem_map.mpr ⟨q, hq, by simpa [beq_iff_eq] using hq1⟩))
      rw [hnil]
      simpa using ih

/-! ## Characterizing the section extractor -/

/-- A line the scan treats as a start-marker line. -/
def isStartLine (l : String) : Bool := lineContains l start_marker

/-- A line the scan treats as an end-marker line: it contains the end
marker and not the start marker (the `elif`). -/
def isEndLine (l : String) : Bool :=
  !(lineContains l start_marker) && lineContains l end_marker

/-- Index of the first line satisfying `p`. -/
def firstIdx (p : String → Bool) : List String → Option Nat
  | [] => none
  | l :: rest => if p l then some 0 else (firstIdx p rest).map (· + 1)

/-- Index of the last line containing the start marker. -/
def lastStartIn : List String → Option Nat
  | [] => none
  | l :: rest =>
    match lastStartIn rest with
    | some k => some (k + 1)
    | none => if isStartLine l then some 0 else none

/-- How the scan's running `start_idx` combines with the lines already
seen: a start marker at relative index `k` yields `idx + k + 1`,
otherwise the inherited value stands. -/
def shiftStart : Option Nat → Nat → Option Nat → Option Nat
  | some k, idx, _ => some (idx + k + 1)
  | none, _, s => s

/-- Spec of the section extractor as the claim words it: first line
containing the start marker, then first subsequent line containing the
end marker, lines strictly between them. -/
def extract_spec_first (psl_content : String) : Except String (List String) :=
  let lines := splitLines psl_content
  match firstIdx (fun l => lineContains l start_marker) lines with
  | none => Except.error "Could not find ICANN domains section markers"
  | some s =>
    match firstIdx (fun l => lineContains l end_marker) (lines.drop (s + 1)) with
    | none => Except.error "Could not find ICANN domains section markers"
    | some k => Except.ok ((lines.drop (s + 1)).take k)

/-- Spec of the section extractor as the code actually behaves: first
end-marker line of the whole text (a line containing the start marker is
never an end line), last start-marker line before it, lines strictly
between. -/
def extract_spec_last (psl_content : String) : Except String (List String) :=
  let lines := splitLines psl_content
  match firstIdx isEndLine lines with
  | none => Except.error "Could not find ICANN domains section markers"
  | some e =>
    match lastStartIn (lines.take e) with
    | none => Except.error "Could not find ICANN domains section markers"
    | some s =>
      Except.ok ((lines.drop (s + 1)).take (e - (s + 1)))

lemma findMarkers_eq :
    ∀ (ls : List String) (idx : Nat) (sIdx : Option Nat),
    findMarkers ls idx sIdx =
      match firstIdx isEndLine ls with
      | some e =>
        (shiftStart (lastStartIn (ls.take e)) idx sIdx, some (idx + e))
      | none => (shiftStart (lastStartIn ls) idx sIdx, none) := by
  intro ls
  induction ls with
  | nil => intro idx sIdx; simp [findMarkers, firstIdx, lastStartIn, shiftStart]
  | cons l rest ih =>
    intro idx sIdx
    by_cases hs : lineContains l start_marker
    · have hend : isEndLine l = false := by simp [isEndLine, hs]
      rcases he : firstIdx isEndLine rest with _ | e
      · rcases hk : lastStartIn rest with _ | k <;>
          · simp [findMarkers, firstIdx, lastStartIn, shiftStart,
              isStartLine, hs, hend, he, hk, ih]
            try omega
      · rcases hk : lastStartIn (rest.take e) with _ | k <;>
          · simp [findMarkers, firstIdx, lastStartIn, shiftStart,
              isStartLine, hs, hend, he, hk, ih]
            try omega
    · by_cases he : lineContains l end_marker
      · have hend : isEndLine l = true := by simp [isEndLine, hs, he]
        simp [findMarkers, firstIdx, lastStartIn, shiftStart, hs, he, hend]
      · have hend : isEndLine l = false := by simp [isEndLine, hs, he]
        rcases he2 : firstIdx isEndLine rest with _ | e
        · rcases hk : lastStartIn rest with _ | k <;>
            · simp [findMarkers, firstIdx, lastStartIn, shiftStart,
                isStartLine, hs, he, hend, he2, hk, ih]
              try omega
        · rcases hk : lastStartIn (rest.take e) with _ | k <;>
            · simp [findMarkers, firstIdx, lastStartIn, shiftStart,
                isStartLine, hs, he, hend, he2, hk, ih]
              try omega

/-- The extractor equals its corrected specification on every input. -/
lemma extract_eq_spec_last (psl_content : String) :
    extract_icann_domains psl_content = extract_spec_last psl_content := by
  rw [extract_icann_domains, extract_spec_last]
  rw [findMarkers_eq]
  rcases he : firstIdx isEndLine (splitLines psl_content) with _ | e
  · rcases hk : lastStartIn (splitLines psl_content) with _ | k <;>
      simp [shiftStart, hk]
  · rcases hk : lastStartIn ((splitLines psl_content).take e) with _ | k <;>
      simp [shiftStart, hk]

/-! ## Missing end marker: the scan never sets `end_idx` -/

/-- If the end marker occurs in some line of the split, it occurs in the
original text. -/
lemma contains_of_line_contains {text : String} {l : String}
    (hl : l ∈ splitLines text) {m : String}
    (hc : lineContains l m = true) :
    containsSub m.data text.data = true := by
  rw [splitLines, List.mem_map] at hl
  obtain ⟨p, hp, rfl⟩ := hl
  obtain ⟨pre, post, hdec⟩ := splitOnChar_piece_sub '\n' text.data p hp
  rw [lineContains] at hc
  rw [containsSub_iff] at hc ⊢
  obtain ⟨pre2, post2, hdec2⟩ := hc
  refine ⟨pre ++ pre2, post2 ++ post, ?_⟩
  rw [hdec]
  have hdec2' : p = pre2 ++ m.data ++ post2 := hdec2
  rw [hdec2']
  simp [List.append_assoc]

lemma findMarkers_end_none :
    ∀ (ls : List String) (idx : Nat) (sIdx : Option Nat),
    (∀ l ∈ ls, lineContains l end_marker = false) →
    (findMarkers ls idx sIdx).2 = none := by
  intro ls
  induction ls with
  | nil => intro idx sIdx _; simp [findMarkers]
  | cons l rest ih =>
    intro idx sIdx h
    rw [findMarkers]
    by_cases hs : lineContains l start_marker
    · rw [if_pos hs]
      exact ih _ _ (fun x hx => h x (List.mem_cons_of_mem l hx))
    · rw [if_neg hs, if_neg (by simp [h l (List.mem_cons_self l rest)])]
      exact ih _ _ (fun x hx => h x (List.mem_cons_of_mem l hx))

lemma extract_error_of_no_end {text : String}
    (h : containsSub end_marker.data text.data = false) :
    extract_icann_domains text =
      Except.error "Could not find ICANN domains section markers" := by
  have hlines : ∀ l ∈ splitLines text, lineContains l end_marker = false := by
    intro l hl
    by_contra hc
    rw [Bool.not_eq_false] at hc
    rw [contains_of_line_contains hl hc] at h
    exact Bool.true_eq_false.mp h
  rw [extract_icann_domains]
  have hnone := findMarkers_end_none (splitLines text) 0 none hlines
  rcases hm : findMarkers (splitLines text) 0 none with ⟨s?, e?⟩
  rw [hm] at hnone
  simp only at hnone
  subst hnone
  rcases s? with _ | s <;> rfl

/-! ## Decomposition of the marker-stripping step -/

lemma head_dropWhile_false (p : Char → Bool) :
    ∀ (l : List Char) (c : Char),
      (l.dropWhile p).head? = some c → p c = false := by
  intro l
  induction l with
  | nil => intro c hc; simp [List.dropWhile] at hc
  | cons x t ih =>
    intro c hc
    rw [List.dropWhile_cons] at hc
    by_cases hx : p x
    · rw [if_pos hx] at hc
      exact ih c hc
    · rw [if_neg hx] at hc
      obtain rfl : x = c := by simpa using hc
      exact Bool.not_eq_true _ ▸ (by simpa using hx)

lemma lstrip_decomp (ch : Char) (l : List Char) :
    ∃ n, l = List.replicate n ch ++ l.dropWhile (fun c => c = ch) ∧
      ∀ c, (l.dropWhile (fun c => c = ch)).head? = some c → c ≠ ch := by
  refine ⟨(l.takeWhile (fun c => c = ch)).length, ?_, ?_⟩
  · conv_lhs => rw [← List.takeWhile_append_dropWhile
      (fun c => decide (c = ch)) l]
    congr 1
    apply List.eq_replicate_of_mem
    intro b hb
    simpa using List.mem_takeWhile_imp hb
  · intro c hc hcc
    have := head_dropWhile_false (fun c => decide (c = ch)) l c hc
    rw [hcc] at this
    simp at this

/-- Marker stripping as the claim words it: remove at most ONE leading
occurrence of `ch`. -/
def dropOneChar (ch : Char) (s : String) : String :=
  match s.data with
  | [] => s
  | c :: rest => if c = ch then ⟨rest⟩ else s

/-- Per-line label extraction as the claim words it: identical to
`lineLabels` except that at most one `*` and then at most one `!` are
stripped. -/
def specLineLabels (rawLine : String) : Option (String × List String) :=
  let line := pyStrip rawLine
  if line.isEmpty then none
  else if isComment line then none
  else
    let stripped := dropOneChar '!' (dropOneChar '*' line)
    let parts := (splitOnDot stripped).filter (fun p => !p.isEmpty)
    if parts.length < 2 then none
    else
      match parts.getLast? with
      | none => none
      | some tld => some (tld, parts.dropLast)

/-- What the marker-stripping step actually does on a surviving line:
the trimmed line decomposes into a (maximal) run of `i` stars, then a
(maximal) run of `j` bangs, then a remainder, and the labels are computed
by splitting exactly that remainder on `.`. -/
lemma lineLabels_strip_decomp (s : String) (h1 : pyStrip s ≠ "")
    (h2 : isComment (pyStrip s) = false) :
    ∃ i j rest,
      (pyStrip s).data =
        List.replicate i '*' ++ (List.replicate j '!' ++ rest) ∧
      (∀ c, (List.replicate j '!' ++ rest).head? = some c → c ≠ '*') ∧
      (∀ c, rest.head? = some c → c ≠ '!') ∧
      lineLabels s =
        (let parts := ((splitOnChar '.' rest).map
            (fun l => (⟨l⟩ : String))).filter (fun p => !p.isEmpty)
         if parts.length < 2 then none
         else
           match parts.getLast? with
           | none => none
           | some tld => some (tld, parts.dropLast)) := by
  obtain ⟨i, hdec1, hhead1⟩ := lstrip_decomp '*' (pyStrip s).data
  obtain ⟨j, hdec2, hhead2⟩ :=
    lstrip_decomp '!' ((pyStrip s).data.dropWhile (fun c => c = '*'))
  refine ⟨i, j,
    ((pyStrip s).data.dropWhile (fun c => c = '*')).dropWhile
      (fun c => c = '!'), ?_, ?_, ?_, ?_⟩
  · rw [hdec2] at hdec1
    exact hdec1
  · intro c hc
    rw [← hdec2] at hc
    exact hhead1 c hc
  · exact hhead2
  · simp only [lineLabels]
    rw [if_neg (by simpa [String.isEmpty_iff] using h1),
      if_neg (by simp [h2])]
    rfl

lemma mem_tld_components {lines excl : List String} {t c : String}
    (hc : c ∈ (parse_domains lines excl).tld_components t) :
    ∃ p ∈ parsedLines lines excl, p.1 = t ∧ c ∈ p.2 := by
  rw [list_closed, List.mem_flatten] at hc
  obtain ⟨l, hl, hcl⟩ := hc
  obtain ⟨p, hpf, rfl⟩ := List.mem_map.mp hl
  obtain ⟨hp, hpt⟩ := List.mem_filter.mp hpf
  exact ⟨p, hp, by simpa [beq_iff_eq] using hpt, hcl⟩

/-! ## The claims -/

/-- C1 (counterexample): on a text with two start-marker lines before the
first end-marker line, the code returns only the lines after the LAST
start marker, not the section following the first one as the claim
states. -/
theorem C1_counterexample :
    extract_icann_domains
        "A\n// ===BEGIN ICANN DOMAINS===\nx\n// ===BEGIN ICANN DOMAINS===\ny\n// ===END ICANN DOMAINS===\nz"
      = Except.ok ["y"] ∧
    extract_spec_first
        "A\n// ===BEGIN ICANN DOMAINS===\nx\n// ===BEGIN ICANN DOMAINS===\ny\n// ===END ICANN DOMAINS===\nz"
      = Except.ok ["x", "// ===BEGIN ICANN DOMAINS===", "y"] ∧
    (["y"] : List String) ≠ ["x", "// ===BEGIN ICANN DOMAINS===", "y"] :=
  ⟨rfl, rfl, by decide⟩

/-- C1 (amended): the extractor returns exactly the lines strictly
between the LAST start-marker line preceding the first end-marker line
and that end-marker line (a line containing the start marker is never
treated as an end line), and errors when no end-marker line exists or no
start-marker line precedes it. -/
theorem C1_extractor_behavior (psl_content : String) :
    extract_icann_domains psl_content = extract_spec_last psl_content :=
  extract_eq_spec_last psl_content

/-- C2 (counterexample): on the line `**aa.b` the code strips BOTH
leading stars (`lstrip` removes the whole run), whereas stripping at most
one `*` and one `!` as the claim states would leave the component
`*aa`. -/
theorem C2_counterexample :
    lineLabels "**aa.b" = some ("b", ["aa"]) ∧
    specLineLabels "**aa.b" = some ("b", ["*aa"]) ∧
    (some (("b" : String), (["aa"] : List String))) ≠
      some (("b" : String), (["*aa"] : List String)) :=
  ⟨by decide, by decide, by decide⟩

/-- C2 (amended): after trimming whitespace and rejecting blanks and
comment lines, the parser strips ALL leading `*` characters and then ALL
leading `!` characters (wildcard run stripped before exception run) and
splits exactly the remainder on `.`. -/
theorem C2_markup_stripping (s : String) (h1 : pyStrip s ≠ "")
    (h2 : isComment (pyStrip s) = false) :
    ∃ i j rest,
      (pyStrip s).data =
        List.replicate i '*' ++ (List.replicate j '!' ++ rest) ∧
      (∀ c, (List.replicate j '!' ++ rest).head? = some c → c ≠ '*') ∧
      (∀ c, rest.head? = some c → c ≠ '!') ∧
      lineLabels s =
        (let parts := ((splitOnChar '.' rest).map
            (fun l => (⟨l⟩ : String))).filter (fun p => !p.isEmpty)
         if parts.length < 2 then none
         else
           match parts.getLast? with
           | none => none
           | some tld => some (tld, parts.dropLast)) :=
  lineLabels_strip_decomp s h1 h2

theorem C2_markup_stripping_witness :
    ∃ i j rest,
      (pyStrip "*!a.b").data =
        List.replicate i '*' ++ (List.replicate j '!' ++ rest) ∧
      (∀ c, (List.replicate j '!' ++ rest).head? = some c → c ≠ '*') ∧
      (∀ c, rest.head? = some c → c ≠ '!') ∧
      lineLabels "*!a.b" =
        (let parts := ((splitOnChar '.' rest).map
            (fun l => (⟨l⟩ : String))).filter (fun p => !p.isEmpty)
         if parts.length < 2 then none
         else
           match parts.getLast? with
           | none => none
           | some tld => some (tld, parts.dropLast)) :=
  C2_markup_stripping "*!a.b" (by decide) (by decide)

/-- C3: the documented scenario: parsing
`["ac", "com.ac", "*.sch.uk", "!educ.ar", "jp"]` with exclusion `{"jp"}`
observes exactly the components `com`, `sch`, `educ`, each with the
corresponding singleton TLD set and total count 1, while the lines
`"ac"` and `"jp"` perform no index updates at all. -/
theorem C3_scenario :
    ((parse_domains ["ac", "com.ac", "*.sch.uk", "!educ.ar", "jp"]
        ["jp"]).component_tlds "com" = {"ac"} ∧
     (parse_domains ["ac", "com.ac", "*.sch.uk", "!educ.ar", "jp"]
        ["jp"]).component_total_count "com" = 1) ∧
    ((parse_domains ["ac", "com.ac", "*.sch.uk", "!educ.ar", "jp"]
        ["jp"]).component_tlds "sch" = {"uk"} ∧
     (parse_domains ["ac", "com.ac", "*.sch.uk", "!educ.ar", "jp"]
        ["jp"]).component_total_count "sch" = 1) ∧
    ((parse_domains ["ac", "com.ac", "*.sch.uk", "!educ.ar", "jp"]
        ["jp"]).component_tlds "educ" = {"ar"} ∧
     (parse_domains ["ac", "com.ac", "*.sch.uk", "!educ.ar", "jp"]
        ["jp"]).component_total_count "educ" = 1) ∧
    (∀ st : ParseState,
      processLine ["jp"] st "ac" = st ∧ processLine ["jp"] st "jp" = st) ∧
    (∀ c : String, c ≠ "com" → c ≠ "sch" → c ≠ "educ" →
      (parse_domains ["ac", "com.ac", "*.sch.uk", "!educ.ar", "jp"]
        ["jp"]).component_total_count c = 0 ∧
      (parse_domains ["ac", "com.ac", "*.sch.uk", "!educ.ar", "jp"]
        ["jp"]).component_tlds c = ∅) := by
  refine ⟨⟨by decide, by decide⟩, ⟨by decide, by decide⟩,
    ⟨by decide, by decide⟩, fun st => ⟨rfl, rfl⟩, ?_⟩
  intro c h1 h2 h3
  constructor
  · rw [count_eq_allComponents]
    have hall : allComponents ["ac", "com.ac", "*.sch.uk", "!educ.ar", "jp"]
        ["jp"] = ["com", "sch", "educ"] := by decide
    rw [hall, List.count_eq_zero]
    simp [h1, h2, h3]
  · rw [Finset.eq_empty_iff_forall_not_mem]
    intro t ht
    rw [tlds_mem_closed] at ht
    have hpl : parsedLines ["ac", "com.ac", "*.sch.uk", "!educ.ar", "jp"]
        ["jp"] = [("ac", ["com"]), ("uk", ["sch"]), ("ar", ["educ"])] := by
      decide
    rw [hpl] at ht
    simp [h1, h2, h3] at ht

theorem C3_scenario_witness :
    (parse_domains ["ac", "com.ac", "*.sch.uk", "!educ.ar", "jp"]
      ["jp"]).component_total_count "zzz" = 0 :=
  (C3_scenario.2.2.2.2 "zzz" (by decide) (by decide) (by decide)).1

/-- C4: the unique-TLD frequency view equals the cardinality of the
component's TLD set and never exceeds the total-frequency view. -/
theorem C4_unique_le_total (lines excl : List String) (c : String) :
    (calculate_frequencies (parse_domains lines excl).component_tlds
        (parse_domains lines excl).component_total_count).2 c =
      ((parse_domains lines excl).component_tlds c).card ∧
    (calculate_frequencies (parse_domains lines excl).component_tlds
        (parse_domains lines excl).component_total_count).2 c ≤
      (calculate_frequencies (parse_domains lines excl).component_tlds
        (parse_domains lines excl).component_total_count).1 c :=
  ⟨rfl, cardInv_parse lines excl c⟩

/-- C5: no excluded TLD ever enters a TLD set or keys the TLD index, and
a line whose TLD is excluded performs no index updates at all. -/
theorem C5_exclusion (lines excl : List String) :
    (∀ c t, t ∈ (parse_domains lines excl).component_tlds c → t ∉ excl) ∧
    (∀ t, t ∈ excl → (parse_domains lines excl).tld_components t = []) ∧
    (∀ (st : ParseState) (line tld : String) (comps : List String),
      lineLabels line = some (tld, comps) → tld ∈ excl →
      processLine excl st line = st) := by
  refine ⟨?_, ?_, ?_⟩
  · intro c t ht
    rw [tlds_mem_closed] at ht
    obtain ⟨p, hp, hpt, -⟩ := ht
    exact hpt ▸ (parsed_line_facts hp).1
  · intro t ht
    rw [list_closed]
    have hnil : (parsedLines lines excl).filter (fun p => p.1 == t) = [] := by
      rw [List.filter_eq_nil_iff]
      intro p hp hpeq
      rw [beq_iff_eq] at hpeq
      exact (parsed_line_facts hp).1 (by rwa [hpeq])
    rw [hnil]
    simp
  · intro st line tld comps hlab hex
    apply processLine_of_none
    simp only [parseLine, hlab]
    simp [hex]

theorem C5_exclusion_witness :
    (parse_domains ["a.it"] ["it"]).tld_components "it" = [] :=
  (C5_exclusion ["a.it"] ["it"]).2.1 "it" (by decide)

/-- C6: the rows of a ranked table are pairwise strictly ordered:
frequency descending, then component string strictly ascending on
ties. -/
theorem C6_ranked_table_sorted (keys : List String) (freq : String → Nat)
    (h : keys.Nodup) :
    (write_csv_rows keys freq).Pairwise
      (fun a b => b.2 < a.2 ∨ (a.2 = b.2 ∧ a.1 < b.1)) := by
  have hsorted : (write_csv_rows keys freq).Pairwise rowRel :=
    List.sorted_insertionSort rowRel (keys.map fun k => (k, freq k))
  have hperm : (write_csv_rows keys freq).Perm
      (keys.map fun k => (k, freq k)) :=
    List.perm_insertionSort rowRel (keys.map fun k => (k, freq k))
  have hnd0 : ((keys.map fun k => (k, freq k)).map Prod.fst).Nodup := by
    have hcomp : (Prod.fst ∘ fun k => (k, freq k)) = @id String := rfl
    rw [List.map_map, hcomp, List.map_id]
    exact h
  have hnd : ((write_csv_rows keys freq).map Prod.fst).Nodup :=
    hnd0.perm (hperm.map Prod.fst).symm
  have hne : (write_csv_rows keys freq).Pairwise fun a b => a.1 ≠ b.1 :=
    List.pairwise_map.mp hnd
  refine (hsorted.and hne).imp (fun hab => ?_)
  obtain ⟨hr, hne'⟩ := hab
  have hr' : _ ∨ _ := hr
  rcases hr' with h1 | ⟨h2, h3⟩
  · exact Or.inl h1
  · exact Or.inr ⟨h2, lt_of_le_of_ne h3 hne'⟩

theorem C6_ranked_table_sorted_witness :
    (write_csv_rows ["b", "a"] (fun _ => 3)).Pairwise
      (fun a b => b.2 < a.2 ∨ (a.2 = b.2 ∧ a.1 < b.1)) :=
  C6_ranked_table_sorted ["b", "a"] (fun _ => 3) (by decide)

/-- C7: the final TLD-set and total-count maps are invariant under
permutation of the input lines, while each TLD's component list equals
the concatenation of the per-line components in input line order. -/
theorem C7_order_independence (lines lines' excl : List String)
    (h : lines.Perm lines') :
    (∀ c, (parse_domains lines excl).component_tlds c =
          (parse_domains lines' excl).component_tlds c) ∧
    (∀ c, (parse_domains lines excl).component_total_count c =
          (parse_domains lines' excl).component_total_count c) ∧
    (∀ t, (parse_domains lines excl).tld_components t =
        (((parsedLines lines excl).filter (fun p => p.1 == t)).map
            (fun p => p.2)).flatten) := by
  have hperm : (parsedLines lines excl).Perm (parsedLines lines' excl) :=
    h.filterMap (parseLine excl)
  refine ⟨?_, ?_, fun t => list_closed lines excl t⟩
  · intro c
    apply Finset.ext
    intro t
    rw [tlds_mem_closed, tlds_mem_closed]
    constructor
    · rintro ⟨p, hp, hpt⟩
      exact ⟨p, hperm.mem_iff.mp hp, hpt⟩
    · rintro ⟨p, hp, hpt⟩
      exact ⟨p, hperm.mem_iff.mpr hp, hpt⟩
  · intro c
    rw [count_closed, count_closed]
    exact (hperm.map (fun p => p.2.count c)).sum_eq

theorem C7_order_independence_witness :
    (parse_domains ["a.b", "c.d"] []).component_total_count "a" =
      (parse_domains ["c.d", "a.b"] []).component_total_count "a" :=
  (C7_order_independence ["a.b", "c.d"] ["c.d", "a.b"] [] (by decide)).2.1 "a"

/-- C8: when the end marker is absent from the input text, the run fails
with the markers-not-found error and produces no output artifacts (the
writers are modelled as the `RunOutput` payload, which an erroring run
never builds). -/
theorem C8_no_end_marker (text : String)
    (h : containsSub end_marker.data text.data = false) :
    run text = Except.error "Could not find ICANN domains section markers" := by
  have hx := extract_error_of_no_end h
  simp only [run, hx]

theorem C8_no_end_marker_witness :
    containsSub end_marker.data ("ac\ncom.ac").data = false ∧
    run "ac\ncom.ac" =
      Except.error "Could not find ICANN domains section markers" :=
  ⟨by decide, C8_no_end_marker "ac\ncom.ac" (by decide)⟩

/-- C9: the TLD-set index and the count index have the same key set, and
the grand total of the count index equals the total length of all TLD
component lists. -/
theorem C9_index_coherence (lines excl : List String) :
    (∀ c, ((parse_domains lines excl).component_tlds c = ∅ ↔
           (parse_domains lines excl).component_total_count c = 0)) ∧
    (∑ c ∈ (allComponents lines excl).toFinset,
        (parse_domains lines excl).component_total_count c =
      ∑ t ∈ (allTlds lines excl).toFinset,
        ((parse_domains lines excl).tld_components t).length) := by
  constructor
  · intro c
    rw [count_eq_allComponents, List.count_eq_zero]
    constructor
    · intro hemp hc
      obtain ⟨p, hp, hcp⟩ := mem_allComponents.mp hc
      have : p.1 ∈ (parse_domains lines excl).component_tlds c :=
        (tlds_mem_closed lines excl c p.1).mpr ⟨p, hp, rfl, hcp⟩
      rw [hemp] at this
      exact absurd this (Finset.not_mem_empty p.1)
    · intro hnc
      rw [Finset.eq_empty_iff_forall_not_mem]
      intro t ht
      obtain ⟨p, hp, -, hcp⟩ := (tlds_mem_closed lines excl c t).mp ht
      exact hnc (mem_allComponents.mpr ⟨p, hp, hcp⟩)
  · have hL : ∑ c ∈ (allComponents lines excl).toFinset,
        (parse_domains lines excl).component_total_count c =
        (allComponents lines excl).length := by
      rw [Finset.sum_congr rfl
        (fun c _ => count_eq_allComponents lines excl c)]
      simp
    have hR : ∑ t ∈ (allTlds lines excl).toFinset,
        ((parse_domains lines excl).tld_components t).length =
        ((parsedLines lines excl).map (fun p => p.2.length)).sum := by
      rw [Finset.sum_congr rfl (fun t _ => by
        rw [list_closed, List.length_flatten, List.map_map])]
      exact sum_fiber (fun p => p.2.length) (parsedLines lines excl)
    rw [hL, hR, allComponents, List.length_flatten, List.map_map]
    rfl

/-- C10: every component key and every TLD string stored in any of the
three indexes is a non-empty string containing no `.`. -/
theorem C10_label_shape (lines excl : List String) :
    (∀ c, ((parse_domains lines excl).component_total_count c ≠ 0 ∨
           (parse_domains lines excl).component_tlds c ≠ ∅) →
        c ≠ "" ∧ '.' ∉ c.data) ∧
    (∀ c t, t ∈ (parse_domains lines excl).component_tlds c →
        t ≠ "" ∧ '.' ∉ t.data) ∧
    (∀ t, ((parse_domains lines excl).tld_components t ≠ [] →
          t ≠ "" ∧ '.' ∉ t.data) ∧
        ∀ c ∈ (parse_domains lines excl).tld_components t,
          c ≠ "" ∧ '.' ∉ c.data) := by
  refine ⟨?_, ?_, ?_⟩
  · intro c hc
    have hmem : c ∈ allComponents lines excl := by
      rcases hc with hc | hc
      · rw [count_eq_allComponents] at hc
        exact List.count_pos_iff.mp (Nat.pos_of_ne_zero hc)
      · obtain ⟨t, ht⟩ := Finset.nonempty_iff_ne_empty.mpr hc
        obtain ⟨p, hp, -, hcp⟩ := (tlds_mem_closed lines excl c t).mp ht
        exact mem_allComponents.mpr ⟨p, hp, hcp⟩
    obtain ⟨p, hp, hcp⟩ := mem_allComponents.mp hmem
    exact (parsed_line_facts hp).2.2 c hcp
  · intro c t ht
    obtain ⟨p, hp, hpt, -⟩ := (tlds_mem_closed lines excl c t).mp ht
    exact hpt ▸ (parsed_line_facts hp).2.1
  · intro t
    constructor
    · intro hne
      obtain ⟨x, hx⟩ := List.exists_mem_of_ne_nil _ hne
      obtain ⟨p, hp, hpt, -⟩ := mem_tld_components hx
      exact hpt ▸ (parsed_line_facts hp).2.1
    · intro c hc
      obtain ⟨p, hp, -, hcp⟩ := mem_tld_components hc
      exact (parsed_line_facts hp).2.2 c hcp

theorem C10_label_shape_witness :
    ("b" : String) ≠ "" ∧ '.' ∉ ("b" : String).data :=
  (C10_label_shape ["a.b"] []).2.1 "a" "b" (by decide)

end SLD
